import Mathlib

/-!
Shallow embedding of the `logic_simplifier` package
(`perm.py`, `simplifier.py`, `expr.py`) and verification of its
specification claims.

Python dictionaries mapping variable names to tri-state values
(`True` / `False` / `None` for don't-care) are embedded as total
functions `V → Option Bool` over a fixed finite, linearly ordered
variable type `V`: throughout the pipeline every pattern dictionary
holds an entry for every variable of the run (`generate_values` builds
full dictionaries and `reduce` preserves the key set), so the key set
is always the whole variable set; a fixed enumeration of the variables
plays the role of the dictionaries' key iteration order.
-/

namespace LogicSimplifier

/-- Embedding of `perm.Permutation`: a value `some true` is Python `True`,
`some false` is `False` and `none` is the don't-care `None`. -/
abbrev Permutation (V : Type) := V → Option Bool

/-- A fixed duplicate-free enumeration of the variable set, standing for
the iteration order of the Python dictionaries' key sets (`reduce`
iterates a key set in unspecified order, so any fixed enumeration is
faithful; `Fin n` enumerates `0, …, n-1`). -/
class EnumList (V : Type) where
  list : List V
  nodup : list.Nodup
  mem_list : ∀ v : V, v ∈ list

instance (n : ℕ) : EnumList (Fin n) :=
  ⟨List.finRange n, List.nodup_finRange n, List.mem_finRange⟩

/-- The key list of a pattern dictionary. -/
def keyList (V : Type) [EnumList V] : List V := EnumList.list

lemma mem_keyList {V : Type} [EnumList V] (v : V) :
    v ∈ keyList V :=
  EnumList.mem_list v

namespace Permutation

variable {V : Type} [DecidableEq V] [Fintype V]

/-- `Permutation.count_positives`: count variables whose value is truthy,
i.e. equal to `True` (`None` and `False` are falsy in Python). -/
def countPositives (p : Permutation V) : ℕ :=
  (Finset.univ.filter fun v => p v = some true).card

/-- `Permutation.keys`: the key set of the pattern dictionary.  The
dictionaries of this pipeline hold an entry for every variable of the
run (don't-care is stored as the value `None`, the key stays present),
so the key set is the whole variable set. -/
def keys (_ : Permutation V) : Finset V := (Finset.univ : Finset V)

/-- A full assignment: no don't-care entry (a minterm pattern). -/
def IsFull (p : Permutation V) : Prop := ∀ v, p v ≠ none

instance (p : Permutation V) : Decidable (IsFull p) := by
  unfold IsFull; infer_instance

/-- Number of don't-care positions of a pattern. -/
def numNones (p : Permutation V) : ℕ :=
  (Finset.univ.filter fun v => p v = none).card

/-- The loop body of `ReducedPermutation.reduce`: walk the key list,
copying agreeing values into the result dictionary `ret`, recording the
first disagreeing key as don't-care, and aborting with `None` at the
second disagreement.  `selfR` is `self._reduced`, `pR` is `p._reduced`;
on agreement the Python assigns `val1`, the value from `pR`. -/
def reduceAux (selfR pR : Permutation V) :
    List V → Bool → Permutation V → Option (Permutation V)
  | [], _, ret => some ret
  | key :: rest, reduced, ret =>
    if pR key = selfR key then
      reduceAux selfR pR rest reduced (Function.update ret key (pR key))
    else if reduced then
      none
    else
      reduceAux selfR pR rest true (Function.update ret key none)

/-- Number of variables on which two patterns disagree. -/
def diffCard (p q : Permutation V) : ℕ :=
  (Finset.univ.filter fun v => p v ≠ q v).card

/-- The merged pattern: agreeing positions keep their value, the
disagreeing position becomes don't-care. -/
def mergePattern (selfR pR : Permutation V) : Permutation V :=
  fun v => if pR v = selfR v then pR v else none

lemma reduceAux_eq (selfR pR : Permutation V) (L : List V) :
    ∀ (flag : Bool) (acc : Permutation V),
      reduceAux selfR pR L flag acc =
        if 2 ≤ L.countP (fun k => decide (pR k ≠ selfR k)) + flag.toNat
        then none
        else some fun v =>
          if v ∈ L then mergePattern selfR pR v else acc v := by
  induction L with
  | nil =>
    intro flag acc
    have hc : ¬ (2 ≤ List.countP (fun k => decide (pR k ≠ selfR k)) [] +
        flag.toNat) := by
      cases flag <;> simp
    rw [reduceAux, if_neg hc]
    exact congrArg some (funext fun v => by simp)
  | cons key rest ih =>
    intro flag acc
    by_cases hk : pR key = selfR key
    · have hcnt : (key :: rest).countP (fun k => decide (pR k ≠ selfR k)) =
          rest.countP (fun k => decide (pR k ≠ selfR k)) :=
        List.countP_cons_of_neg _ _ (by simp [hk])
      rw [reduceAux, if_pos hk, ih, hcnt]
      by_cases h2 : 2 ≤ rest.countP (fun k => decide (pR k ≠ selfR k)) +
          flag.toNat
      · rw [if_pos h2, if_pos h2]
      · rw [if_neg h2, if_neg h2]
        congr 1; funext v
        by_cases hv : v ∈ rest
        · simp [hv]
        · by_cases hvk : v = key
          · subst hvk
            simp [hv, Function.update_apply, mergePattern, hk]
          · simp [hv, hvk, Function.update_apply]
    · have hcnt : (key :: rest).countP (fun k => decide (pR k ≠ selfR k)) =
          rest.countP (fun k => decide (pR k ≠ selfR k)) + 1 :=
        List.countP_cons_of_pos _ _ (by simp [hk])
      cases flag with
      | true =>
        have hc : 2 ≤ (key :: rest).countP
            (fun k => decide (pR k ≠ selfR k)) + (true : Bool).toNat := by
          rw [hcnt]; simp
        rw [reduceAux, if_neg hk, if_pos rfl, if_pos hc]
      | false =>
        have hff : ¬ ((false : Bool) = true) := by simp
        rw [reduceAux, if_neg hk, if_neg hff, ih]
        by_cases h2 : 2 ≤ rest.countP (fun k => decide (pR k ≠ selfR k)) + 1
        · have ha : 2 ≤ rest.countP (fun k => decide (pR k ≠ selfR k)) +
              (true : Bool).toNat := by simpa using h2
          have hb : 2 ≤ (key :: rest).countP
              (fun k => decide (pR k ≠ selfR k)) + (false : Bool).toNat := by
            rw [hcnt]; simpa using h2
          rw [if_pos ha, if_pos hb]
        · have ha : ¬ (2 ≤ rest.countP (fun k => decide (pR k ≠ selfR k)) +
              (true : Bool).toNat) := by simpa using h2
          have hb : ¬ (2 ≤ (key :: rest).countP
              (fun k => decide (pR k ≠ selfR k)) + (false : Bool).toNat) := by
            rw [hcnt]; simpa using h2
          rw [if_neg ha, if_neg hb]
          congr 1; funext v
          by_cases hv : v ∈ rest
          · simp [hv]
          · by_cases hvk : v = key
            · subst hvk
              simp [hv, Function.update_apply, mergePattern, hk]
            · simp [hv, hvk, Function.update_apply]

end Permutation

variable {V : Type} [DecidableEq V] [Fintype V] [EnumList V]

/-- Embedding of `perm.ReducedPermutation`: the provenance set `_perms`
of initial permutations together with the reduced pattern `_reduced`. -/
structure ReducedPermutation (V : Type) where
  perms : Finset (Permutation V)
  reduced : Permutation V

instance : DecidableEq (ReducedPermutation V) := fun a b =>
  decidable_of_iff (a.perms = b.perms ∧ a.reduced = b.reduced) (by
    cases a; cases b; simp)

namespace ReducedPermutation

/-- `ReducedPermutation.from_permutation`: a trivial implicant whose
provenance is the assignment itself. -/
def fromPermutation (p : Permutation V) : ReducedPermutation V :=
  ⟨{p}, p⟩

/-- `ReducedPermutation.get_reduced`. -/
def getReduced (a : ReducedPermutation V) : Permutation V := a.reduced

/-- `ReducedPermutation.reduce`: walk the union of the two key sets (here
the whole variable set), merging the patterns; on success the provenance
is `self._perms.union(p._perms)`. -/
def reduce (a b : ReducedPermutation V) : Option (ReducedPermutation V) :=
  (Permutation.reduceAux a.reduced b.reduced (keyList V) false
      (fun _ => none)).map
    fun ret => ⟨a.perms ∪ b.perms, ret⟩

lemma card_filter_eq_countP (L : List V) (hnd : L.Nodup) (P : V → Prop)
    [DecidablePred P] :
    (L.toFinset.filter P).card = L.countP (fun k => decide (P k)) := by
  induction L with
  | nil => simp
  | cons a l ih =>
    have hal : a ∉ l := (List.nodup_cons.mp hnd).1
    have hl : l.Nodup := (List.nodup_cons.mp hnd).2
    rw [List.toFinset_cons, Finset.filter_insert]
    by_cases hPa : P a
    · rw [if_pos hPa, List.countP_cons_of_pos _ _ (by simpa using hPa),
        Finset.card_insert_of_not_mem (by simp [hal]), ih hl]
    · rw [if_neg hPa, List.countP_cons_of_neg _ _ (by simpa using hPa), ih hl]

lemma countP_keyList (P : V → Prop) [DecidablePred P] :
    (keyList V).countP (fun k => decide (P k)) =
      (Finset.univ.filter P).card := by
  have hnd : (keyList V).Nodup := EnumList.nodup
  have htf : (keyList V).toFinset = (Finset.univ : Finset V) := by
    ext v; simp [mem_keyList]
  rw [← card_filter_eq_countP _ hnd, htf]

/-- Characterization of `reduce`: it fails exactly when the two patterns
disagree on at least two variables, and otherwise returns the merged
pattern over the union of the provenances. -/
lemma reduce_eq (a b : ReducedPermutation V) :
    reduce a b =
      if 2 ≤ Permutation.diffCard b.reduced a.reduced then none
      else some ⟨a.perms ∪ b.perms,
        Permutation.mergePattern a.reduced b.reduced⟩ := by
  rw [reduce, Permutation.reduceAux_eq]
  have hc : (keyList V).countP
      (fun k => decide (b.reduced k ≠ a.reduced k)) + (false).toNat =
      Permutation.diffCard b.reduced a.reduced := by
    rw [countP_keyList (fun k => b.reduced k ≠ a.reduced k)]
    simp [Permutation.diffCard]
  rw [hc]
  split
  · rfl
  · simp only [Option.map_some']
    congr 2
    funext v
    simp [mem_keyList]

lemma reduce_eq_none_iff (a b : ReducedPermutation V) :
    reduce a b = none ↔ 2 ≤ Permutation.diffCard b.reduced a.reduced := by
  rw [reduce_eq]
  split
  next h => simpa using h
  next h => simpa using h

lemma reduce_eq_some_iff (a b r : ReducedPermutation V) :
    reduce a b = some r ↔
      Permutation.diffCard b.reduced a.reduced ≤ 1 ∧
      r = ⟨a.perms ∪ b.perms,
        Permutation.mergePattern a.reduced b.reduced⟩ := by
  rw [reduce_eq]
  by_cases h : 2 ≤ Permutation.diffCard b.reduced a.reduced
  · rw [if_pos h]
    constructor
    · intro hc; exact absurd hc (by simp)
    · rintro ⟨h1, -⟩; exact absurd h1 (by omega)
  · rw [if_neg h]
    constructor
    · intro hc
      exact ⟨by omega, (Option.some_injective _ hc).symm⟩
    · rintro ⟨-, rfl⟩
      rfl

end ReducedPermutation

/-- Modelled from the spec's §3 definition of *merge-adjacency*: two
assignments agree on every variable except exactly one, and on that one
variable the values are `True` in one and `False` in the other (neither
may already be don't-care there).  Stated from the spec's words, to be
compared with what `reduce` implements. -/
def MergeAdjacent (p q : Permutation V) : Prop :=
  ∃ v, (∀ w, w ≠ v → p w = q w) ∧
    ((p v = some true ∧ q v = some false) ∨
     (p v = some false ∧ q v = some true))

instance (p q : Permutation V) : Decidable (MergeAdjacent p q) := by
  unfold MergeAdjacent; infer_instance

/-- A stage of the `SimplificationTable`, i.e. one element of
`self._stages`: a Python dictionary `{ n: set of reduced permutations }`
bucketed by number of ones, embedded as its graph — the set of pairs
`(n, reduced permutation)`.  A key is present in the dictionary exactly
when its bucket is non-empty (`newstage[gid]` entries are only created
by `add`, and `group_values` only appends). -/
abbrev Stage (V : Type) := Finset (ℕ × ReducedPermutation V)

/-- The body of `SimplificationTable.next_stage`: for every group `gid`
whose successor group `gid + 1` is also present, merge every permutation
of bucket `gid` with every permutation of bucket `gid + 1`; each
successful reduction is stored under key `gid` of the new stage.
(The guard `if not (gid + 1) in stage: continue` only skips empty work:
an absent key is an empty bucket, which contributes no pairs.) -/
def newStage (s : Stage V) : Stage V :=
  s.biUnion fun p =>
    s.biUnion fun q =>
      if q.1 = p.1 + 1 then
        (ReducedPermutation.reduce p.2 q.2).toFinset.image fun r => (p.1, r)
      else ∅

/-- `SimplificationTable.group_values`: wrap each assignment as a trivial
implicant and bucket it under its count of ones. -/
def groupValues (values : Finset (Permutation V)) : Stage V :=
  values.image fun val =>
    (val.countPositives, ReducedPermutation.fromPermutation val)

lemma mem_newStage {s : Stage V} {x : ℕ × ReducedPermutation V} :
    x ∈ newStage s ↔
      ∃ a b, (x.1, a) ∈ s ∧ (x.1 + 1, b) ∈ s ∧
        ReducedPermutation.reduce a b = some x.2 := by
  constructor
  · intro hx
    obtain ⟨⟨p1, p2⟩, hp, hq⟩ := Finset.mem_biUnion.mp hx
    obtain ⟨⟨q1, q2⟩, hq', hr⟩ := Finset.mem_biUnion.mp hq
    by_cases hkey : q1 = p1 + 1
    · subst hkey
      rw [if_pos rfl] at hr
      obtain ⟨r, hr', hxr⟩ := Finset.mem_image.mp hr
      rw [Option.mem_toFinset] at hr'
      subst hxr
      exact ⟨p2, q2, hp, hq', by simpa using hr'⟩
    · rw [if_neg hkey] at hr
      exact absurd hr (Finset.not_mem_empty _)
  · rintro ⟨a, b, ha, hb, hab⟩
    refine Finset.mem_biUnion.mpr ⟨(x.1, a), ha, ?_⟩
    refine Finset.mem_biUnion.mpr ⟨(x.1 + 1, b), hb, ?_⟩
    rw [if_pos rfl]
    exact Finset.mem_image.mpr ⟨x.2, Option.mem_toFinset.mpr (by simp [hab]),
      by simp⟩

@[simp] lemma newStage_empty : newStage (∅ : Stage V) = ∅ := by
  simp [newStage]

/-- The largest bucket key of a stage. -/
def maxKey (s : Stage V) : ℕ := s.sup Prod.fst

lemma maxKey_newStage_lt {s : Stage V} (h : (newStage s).Nonempty) :
    maxKey (newStage s) < maxKey s := by
  obtain ⟨x0, hx0⟩ := h
  obtain ⟨a, b, _, hb, _⟩ := mem_newStage.mp hx0
  have hpos : 0 < maxKey s :=
    lt_of_lt_of_le (Nat.succ_pos _) (Finset.le_sup (f := Prod.fst) hb)
  rw [maxKey, Finset.sup_lt_iff hpos]
  intro y hy
  obtain ⟨a', b', _, hb', _⟩ := mem_newStage.mp hy
  have : y.1 + 1 ≤ maxKey s := Finset.le_sup (f := Prod.fst) hb'
  omega

/-- The loop of `SimplificationTable.fill_stages`: keep computing
`next_stage` from the last stage; whenever the new stage is non-empty
append it and repeat, otherwise stop.  Termination: every bucket key of
a new stage is strictly below the largest key of the previous stage. -/
def fillFrom (s : Stage V) : List (Stage V) :=
  if h : (newStage s).Nonempty then newStage s :: fillFrom (newStage s)
  else []
termination_by maxKey s
decreasing_by exact maxKey_newStage_lt h

/-- `SimplificationTable.fill_stages` starting from the initial table
`[s₀]`: the list of stages after the loop has finished. -/
def fillStages (s₀ : Stage V) : List (Stage V) :=
  s₀ :: fillFrom s₀

/-- The last stage of a non-empty stage list. -/
def lastStage (l : List (Stage V)) : Stage V := l.getLastD ∅

lemma countPositives_mergePattern {a b : Permutation V} {n : ℕ}
    (hd : Permutation.diffCard b a ≤ 1)
    (ha : a.countPositives = n) (hb : b.countPositives = n + 1) :
    (Permutation.mergePattern a b).countPositives = n := by
  rw [Permutation.countPositives] at ha hb ⊢
  have hM : (Finset.univ.filter fun v =>
      Permutation.mergePattern a b v = some true) =
      (Finset.univ.filter fun v => b v = some true) ∩
      (Finset.univ.filter fun v => a v = some true) := by
    ext v
    simp only [Finset.mem_filter, Finset.mem_inter, Finset.mem_univ,
      true_and, Permutation.mergePattern]
    by_cases h : b v = a v
    · rw [if_pos h]
      exact ⟨fun hv => ⟨hv, h ▸ hv⟩, fun hv => hv.1⟩
    · rw [if_neg h]
      exact ⟨fun hv => absurd hv (by simp),
        fun hv => absurd (hv.1.trans hv.2.symm) h⟩
  have hsub : (Finset.univ.filter fun v => b v = some true) \
      (Finset.univ.filter fun v => a v = some true) ⊆
      Finset.univ.filter fun v => b v ≠ a v := by
    intro v hv
    simp only [Finset.mem_sdiff, Finset.mem_filter, Finset.mem_univ,
      true_and] at hv ⊢
    intro hba
    exact hv.2 (hba ▸ hv.1)
  have hc1 : ((Finset.univ.filter fun v => b v = some true) \
      (Finset.univ.filter fun v => a v = some true)).card ≤ 1 :=
    le_trans (Finset.card_le_card hsub) hd
  have hc2 := Finset.card_inter_add_card_sdiff
    (Finset.univ.filter fun v => b v = some true)
    (Finset.univ.filter fun v => a v = some true)
  have hc3 : ((Finset.univ.filter fun v => b v = some true) ∩
      (Finset.univ.filter fun v => a v = some true)).card ≤
      (Finset.univ.filter fun v => a v = some true).card :=
    Finset.card_le_card Finset.inter_subset_right
  rw [hM]
  omega

lemma numNones_mergePattern {a b : Permutation V} {n k : ℕ}
    (hd : Permutation.diffCard b a ≤ 1)
    (hpa : a.countPositives = n) (hpb : b.countPositives = n + 1)
    (hna : a.numNones = k) (hnb : b.numNones = k) :
    (Permutation.mergePattern a b).numNones = k + 1 := by
  -- the two patterns cannot be identical: their positive counts differ
  have hne : ∃ v0, b v0 ≠ a v0 := by
    by_contra hall
    push_neg at hall
    have : a = b := funext fun v => (hall v).symm
    rw [this, hpb] at hpa
    omega
  obtain ⟨v0, hv0⟩ := hne
  -- and they disagree nowhere else
  have hagree : ∀ w, w ≠ v0 → b w = a w := by
    intro w hw
    by_contra hbw
    have hsub : ({w, v0} : Finset V) ⊆
        Finset.univ.filter fun v => b v ≠ a v := by
      intro v hv
      simp only [Finset.mem_insert, Finset.mem_singleton] at hv
      rcases hv with rfl | rfl <;>
        simp only [Finset.mem_filter, Finset.mem_univ, true_and] <;>
        assumption
    have h2 : ({w, v0} : Finset V).card = 2 := by
      rw [Finset.card_insert_of_not_mem (by simp [hw]),
        Finset.card_singleton]
    have := Finset.card_le_card hsub
    rw [h2] at this
    rw [Permutation.diffCard] at hd
    omega
  -- at the disagreeing position neither pattern is don't-care
  have hva : a v0 ≠ none := by
    intro hnone
    have hbn : v0 ∉ Finset.univ.filter fun v => b v = none := by
      simp only [Finset.mem_filter, Finset.mem_univ, true_and]
      intro hb0
      exact hv0 (hb0.trans hnone.symm)
    have han : v0 ∈ Finset.univ.filter fun v => a v = none := by
      simp [hnone]
    have herase : (Finset.univ.filter fun v => a v = none).erase v0 =
        (Finset.univ.filter fun v => b v = none).erase v0 := by
      ext w
      simp only [Finset.mem_erase, Finset.mem_filter, Finset.mem_univ,
        true_and]
      constructor
      · rintro ⟨hw, hwa⟩
        exact ⟨hw, (hagree w hw).trans hwa⟩
      · rintro ⟨hw, hwb⟩
        exact ⟨hw, ((hagree w hw).symm.trans hwb)⟩
    have hca := Finset.card_erase_of_mem han
    have hcb : ((Finset.univ.filter fun v => b v = none).erase v0).card =
        (Finset.univ.filter fun v => b v = none).card :=
      congrArg Finset.card (Finset.erase_eq_of_not_mem hbn)
    have hpos : 1 ≤ (Finset.univ.filter fun v => a v = none).card :=
      Finset.card_pos.mpr ⟨v0, han⟩
    rw [Permutation.numNones] at hna hnb
    rw [herase, hcb, hnb] at hca
    omega
  have hvb : b v0 ≠ none := by
    intro hnone
    have han : v0 ∉ Finset.univ.filter fun v => a v = none := by
      simp only [Finset.mem_filter, Finset.mem_univ, true_and]
      intro ha0
      exact hv0 (hnone.trans ha0.symm)
    have hbn : v0 ∈ Finset.univ.filter fun v => b v = none := by
      simp [hnone]
    have herase : (Finset.univ.filter fun v => a v = none).erase v0 =
        (Finset.univ.filter fun v => b v = none).erase v0 := by
      ext w
      simp only [Finset.mem_erase, Finset.mem_filter, Finset.mem_univ,
        true_and]
      constructor
      · rintro ⟨hw, hwa⟩
        exact ⟨hw, (hagree w hw).trans hwa⟩
      · rintro ⟨hw, hwb⟩
        exact ⟨hw, ((hagree w hw).symm.trans hwb)⟩
    have hcb := Finset.card_erase_of_mem hbn
    have hca : ((Finset.univ.filter fun v => a v = none).erase v0).card =
        (Finset.univ.filter fun v => a v = none).card :=
      congrArg Finset.card (Finset.erase_eq_of_not_mem han)
    have hpos : 1 ≤ (Finset.univ.filter fun v => b v = none).card :=
      Finset.card_pos.mpr ⟨v0, hbn⟩
    rw [Permutation.numNones] at hna hnb
    rw [← herase, hca, hna] at hcb
    omega
  -- the merged don't-care set is the original one plus the new position
  have hM : (Finset.univ.filter fun v =>
      Permutation.mergePattern a b v = none) =
      insert v0 (Finset.univ.filter fun v => a v = none) := by
    ext w
    simp only [Finset.mem_filter, Finset.mem_insert, Finset.mem_univ,
      true_and, Permutation.mergePattern]
    by_cases hw : w = v0
    · subst hw
      rw [if_neg hv0]
      simp
    · rw [if_pos (hagree w hw)]
      constructor
      · intro hwn
        exact Or.inr ((hagree w hw).symm.trans hwn)
      · rintro (rfl | hwn)
        · exact absurd rfl hw
        · exact (hagree w hw).trans hwn
  have hnotmem : v0 ∉ Finset.univ.filter fun v => a v = none := by
    simp [hva]
  rw [Permutation.numNones] at hna
  rw [Permutation.numNones, hM, Finset.card_insert_of_not_mem hnotmem, hna]

lemma numNones_of_isFull {p : Permutation V} (h : p.IsFull) :
    p.numNones = 0 := by
  rw [Permutation.numNones, Finset.card_eq_zero,
    Finset.filter_eq_empty_iff]
  intro v _
  exact h v

lemma numNones_le_card (p : Permutation V) :
    p.numNones ≤ Fintype.card V := by
  rw [Permutation.numNones, ← Finset.card_univ]
  exact Finset.card_filter_le _ _

/-- The `k`-th stage reached from the initial table built on `P`. -/
def stageIter (P : Finset (Permutation V)) (k : ℕ) : Stage V :=
  newStage^[k] (groupValues P)

/-- Joint invariant of the staged merging: at stage `k`, every implicant
sits in the bucket of its positive count and its pattern has exactly `k`
don't-care positions. -/
lemma stage_inv (P : Finset (Permutation V)) (hP : ∀ p ∈ P, p.IsFull)
    (k : ℕ) :
    ∀ x ∈ stageIter P k,
      Permutation.countPositives x.2.reduced = x.1 ∧
      Permutation.numNones x.2.reduced = k := by
  induction k with
  | zero =>
    intro x hx
    rw [stageIter, Function.iterate_zero_apply, groupValues] at hx
    obtain ⟨p, hp, hxp⟩ := Finset.mem_image.mp hx
    subst hxp
    exact ⟨rfl, numNones_of_isFull (hP p hp)⟩
  | succ k ih =>
    intro x hx
    rw [stageIter, Function.iterate_succ_apply'] at hx
    obtain ⟨a, b, ha, hb, hab⟩ := mem_newStage.mp hx
    obtain ⟨hpa, hna⟩ := ih _ ha
    obtain ⟨hpb, hnb⟩ := ih _ hb
    obtain ⟨hd, hr⟩ := (ReducedPermutation.reduce_eq_some_iff _ _ _).mp hab
    rw [hr]
    exact ⟨countPositives_mergePattern hd hpa hpb,
      numNones_mergePattern hd hpa hpb hna hnb⟩

lemma stageIter_eventually_empty (P : Finset (Permutation V))
    (hP : ∀ p ∈ P, p.IsFull) :
    stageIter P (Fintype.card V + 1) = ∅ := by
  by_contra h
  obtain ⟨x, hx⟩ := Finset.nonempty_of_ne_empty h
  have := (stage_inv P hP _ x hx).2
  have := numNones_le_card x.2.reduced
  omega

lemma fillFrom_last_newStage (n : ℕ) :
    ∀ (s : Stage V), newStage^[n] s = ∅ →
      newStage (lastStage (s :: fillFrom s)) = ∅ := by
  induction n with
  | zero =>
    intro s hs
    rw [Function.iterate_zero_apply] at hs
    subst hs
    rw [fillFrom, dif_neg (by simp)]
    simp [lastStage]
  | succ n ih =>
    intro s hs
    by_cases hne : (newStage s).Nonempty
    · rw [fillFrom, dif_pos hne]
      have : lastStage (s :: newStage s :: fillFrom (newStage s)) =
          lastStage (newStage s :: fillFrom (newStage s)) := by
        simp [lastStage]
      rw [this]
      exact ih (newStage s) (by rw [← Function.iterate_succ_apply]; exact hs)
    · rw [fillFrom, dif_neg hne]
      simpa [lastStage] using Finset.not_nonempty_iff_eq_empty.mp hne

lemma fillFrom_length_nonempty (m : ℕ) :
    ∀ (s : Stage V), (fillFrom s).length = m → 1 ≤ m →
      (newStage^[m] s).Nonempty := by
  induction m with
  | zero =>
    intro s _ h1
    omega
  | succ m ih =>
    intro s hlen _
    by_cases hne : (newStage s).Nonempty
    · rw [fillFrom, dif_pos hne] at hlen
      simp only [List.length_cons, Nat.add_right_cancel_iff] at hlen
      cases Nat.eq_zero_or_pos m with
      | inl hm =>
        subst hm
        simpa using hne
      | inr hm =>
        rw [Function.iterate_succ_apply]
        exact ih (newStage s) hlen hm
    · rw [fillFrom, dif_neg hne] at hlen
      simp at hlen
/-- The binary operator symbols accepted by `expr.Operator.eval`
(`>`, `&`, `|`, `^`, `=`); any other symbol raises, and the parser
constructs no other. -/
inductive Op where
  | impl : Op
  | and : Op
  | or : Op
  | xor : Op
  | iff : Op

/-- Embedding of `expr.Expression` and its concrete subclasses
`Variable`, `TrueVal`, `FalseVal`, `Negation` and `Operator`
(the operator priority only affects printing, not evaluation). -/
inductive Expr (V : Type) where
  | var : V → Expr V
  | trueVal : Expr V
  | falseVal : Expr V
  | neg : Expr V → Expr V
  | binop : Expr V → Op → Expr V → Expr V

/-- `Expression.eval` over a total variable mapping (the pipeline builds
assignments over all variables, so `VariableNotFoundException` cannot
fire). -/
def Expr.eval {V : Type} : Expr V → (V → Bool) → Bool
  | .var v, m => m v
  | .trueVal, _ => true
  | .falseVal, _ => false
  | .neg e, m => !(e.eval m)
  | .binop l o r, m =>
    match o with
    | .impl => !(l.eval m && !(r.eval m))
    | .and => l.eval m && r.eval m
    | .or => l.eval m || r.eval m
    | .xor => l.eval m != r.eval m
    | .iff => l.eval m == r.eval m

/-- A boolean assignment viewed as a full permutation dictionary. -/
def fullPerm (f : V → Bool) : Permutation V := fun v => some (f v)

/-- Modelled from the spec: `generate_positives`, called on the parsed
expression by `SimplificationTable.for_expr`, is not defined in the
repository's files.  Per spec §4.1 (Minterm Enumerator), it produces the
set of all full assignments over the expression's variables for which
`evaluate` returns true. -/
def generatePositives (e : Expr V) : Finset (Permutation V) :=
  ((Finset.univ : Finset (V → Bool)).filter fun f => e.eval f).image fullPerm

/-- `SimplificationTable.for_expr`: stage 0 of the table built for an
expression, i.e. `group_values(expr.generate_positives())`. -/
def forExpr (e : Expr V) : Stage V :=
  groupValues (generatePositives e)

/-- `_default_measure` from `SimplificationTable.__init__`: sum over the
cover of `len(perm.get_reduced().keys())`. -/
def defaultMeasure (res : List (ReducedPermutation V)) : ℕ :=
  res.foldl (fun ret perm => ret + (Permutation.keys perm.getReduced).card) 0

/-- The cost the spec ascribes to the default measure: the sum, over the
cover, of the number of non-don't-care variables in each implicant's
pattern (the literal count of the product terms).  Stated from the
spec's words, to be compared with `defaultMeasure`. -/
def specLiteralCount (res : List (ReducedPermutation V)) : ℕ :=
  res.foldl (fun ret perm =>
    ret + (Finset.univ.filter fun v => perm.reduced v ≠ none).card) 0

/-- `Permutation.to_conj`: walk the keys in sorted order, appending
`' & ' + k` for a `True` value and `' & ~' + k` for a `False` value;
return `'1'` for an empty result, else drop the leading `' & '`. -/
def Permutation.toConj (names : List V) (toName : V → String)
    (p : Permutation V) : String :=
  let ret := names.foldl (fun ret k =>
    match p k with
    | some true => ret ++ " & " ++ toName k
    | some false => ret ++ " & ~" ++ toName k
    | none => ret) ""
  if ret = "" then "1" else ret.drop 3

/-- The rendering in `main`: join the covers' conjunctions with `' | '`
and print the result, or `'0'` when it is empty. -/
def renderMinimal (names : List V) (toName : V → String)
    (rs : List (ReducedPermutation V)) : String :=
  let minimal := String.intercalate " | "
    (rs.map fun r => Permutation.toConj names toName r.getReduced)
  if minimal ≠ "" then minimal else "0"

/-- The grouped coverage mapping of `grouped_results` and of the solver:
the Python dictionary `{ permutation: set of reduced permutations }`,
embedded as an association list in dictionary insertion order (Python
dictionaries iterate in insertion order; the groups, Python sets, are
lists in their iteration order). -/
abbrev Grouped (V : Type) :=
  List (Permutation V × List (ReducedPermutation V))

/-- The selection loop of `_extract_essentials`: `min_degree` starts as
`None` and — exactly as in the source — is never assigned afterwards, so
the branch taken compares `len(reduced) < min_degree` only when
`min_degree` is not `None`, which never happens. -/
def minReducedLoop (g : Grouped V) :
    Option ℕ × Option (List (ReducedPermutation V)) :=
  g.foldl (fun acc gr =>
    match acc.1 with
    | none => (acc.1, some gr.2)
    | some d => if gr.2.length < d then (acc.1, some gr.2) else acc)
    (none, none)

/-- The branch-candidate group `min_reduced` selected by
`_extract_essentials` (empty when the loop never ran and `min_reduced`
stayed `None`, in which case `{}` is returned). -/
def minReducedSet (g : Grouped V) : List (ReducedPermutation V) :=
  ((minReducedLoop g).2).getD []

/-- The deletion condition of `_exclude_reduced`:
`len(reduced) == 0 or to_exclude in reduced`. -/
def exclCond (toExclude : ReducedPermutation V)
    (gr : Permutation V × List (ReducedPermutation V)) : Prop :=
  gr.2.length = 0 ∨ toExclude ∈ gr.2

instance (e : ReducedPermutation V)
    (gr : Permutation V × List (ReducedPermutation V)) :
    Decidable (exclCond e gr) := by
  unfold exclCond; infer_instance

/-- `_exclude_reduced`: start from a copy of the grouped mapping and,
iterating the original, delete every key whose group is empty or
contains `to_exclude`; the input mapping itself is left untouched. -/
def excludeReduced (g : Grouped V) (toExclude : ReducedPermutation V) :
    Grouped V :=
  g.foldl (fun ret gr =>
    if exclCond toExclude gr then
      ret.eraseP fun gr2 => decide (gr2.1 = gr.1)
    else ret) g

omit [DecidableEq V] [EnumList V] in
lemma minReducedLoop_eq (g : Grouped V) :
    ∀ acc2, g.foldl (fun acc gr =>
      match acc.1 with
      | none => (acc.1, some gr.2)
      | some d => if gr.2.length < d then (acc.1, some gr.2) else acc)
      ((none : Option ℕ), acc2) =
      (none, match g.getLast? with
             | some gr => some gr.2
             | none => acc2) := by
  induction g with
  | nil => intro acc2; rfl
  | cons gr rest ih =>
    intro acc2
    rw [List.foldl_cons, ih]
    cases rest with
    | nil => rfl
    | cons gr2 rest2 =>
      rw [List.getLast?_cons_cons,
        List.getLast?_eq_getLast (gr2 :: rest2) (by simp)]

omit [DecidableEq V] [EnumList V] in
lemma minReducedSet_eq (g : Grouped V) :
    minReducedSet g = match g.getLast? with
                      | some gr => gr.2
                      | none => [] := by
  rw [minReducedSet, minReducedLoop, minReducedLoop_eq]
  cases g.getLast? <;> rfl

omit [DecidableEq V] [EnumList V] in
lemma foldl_excl_length_le (e : ReducedPermutation V) (l : Grouped V) :
    ∀ ret : Grouped V,
      (l.foldl (fun ret gr =>
        if exclCond e gr then ret.eraseP fun gr2 => decide (gr2.1 = gr.1)
        else ret) ret).length ≤ ret.length := by
  induction l with
  | nil => intro ret; exact le_rfl
  | cons gr rest ih =>
    intro ret
    rw [List.foldl_cons]
    refine le_trans (ih _) ?_
    by_cases hc : exclCond e gr
    · rw [if_pos hc]
      exact List.length_eraseP_le _
    · rw [if_neg hc]

omit [DecidableEq V] [EnumList V] in
lemma foldl_excl_length_lt (e : ReducedPermutation V) (l : Grouped V) :
    ∀ (ret : Grouped V) (gr0 : Permutation V × List (ReducedPermutation V)),
      gr0 ∈ l → exclCond e gr0 → (∃ x ∈ ret, x.1 = gr0.1) →
      (l.foldl (fun ret gr =>
        if exclCond e gr then ret.eraseP fun gr2 => decide (gr2.1 = gr.1)
        else ret) ret).length < ret.length := by
  induction l with
  | nil =>
    intro ret gr0 h0
    exact absurd h0 (List.not_mem_nil _)
  | cons gr rest ih =>
    intro ret gr0 h0 hc0 hx
    rw [List.foldl_cons]
    by_cases hc : exclCond e gr
    · rw [if_pos hc]
      by_cases hhit : ∃ x ∈ ret, x.1 = gr.1
      · obtain ⟨x, hxr, hx1⟩ := hhit
        have hlt : (ret.eraseP fun gr2 => decide (gr2.1 = gr.1)).length <
            ret.length := by
          rw [List.length_eraseP_of_mem hxr (by simp [hx1])]
          have : 1 ≤ ret.length := List.length_pos.mpr
            (List.ne_nil_of_mem hxr)
          omega
        exact lt_of_le_of_lt (foldl_excl_length_le e rest _) hlt
      · have hsame : (ret.eraseP fun gr2 => decide (gr2.1 = gr.1)) = ret :=
          List.eraseP_of_forall_not fun x hxr => by
            simp only [decide_eq_true_eq]
            exact fun h1 => hhit ⟨x, hxr, h1⟩
        rw [hsame]
        have hne : gr0 ≠ gr := by
          rintro rfl
          obtain ⟨x, hxr, hx1⟩ := hx
          exact hhit ⟨x, hxr, hx1⟩
        have h0' : gr0 ∈ rest := by
          cases List.mem_cons.mp h0 with
          | inl h => exact absurd h hne
          | inr h => exact h
        exact ih ret gr0 h0' hc0 hx
    · rw [if_neg hc]
      have hne : gr0 ≠ gr := fun h => hc (h ▸ hc0)
      have h0' : gr0 ∈ rest := by
        cases List.mem_cons.mp h0 with
        | inl h => exact absurd h hne
        | inr h => exact h
      exact ih ret gr0 h0' hc0 hx

omit [DecidableEq V] [EnumList V] in
lemma excludeReduced_length_lt {g : Grouped V}
    {e : ReducedPermutation V} (he : e ∈ minReducedSet g) :
    (excludeReduced g e).length < g.length := by
  rw [minReducedSet_eq] at he
  rcases hlast : g.getLast? with - | ⟨lst⟩
  · rw [hlast] at he
    exact absurd he (List.not_mem_nil _)
  · rw [hlast] at he
    have hmem : lst ∈ g :=
      List.mem_of_mem_getLast? (Option.mem_def.mpr hlast)
    exact foldl_excl_length_lt e g g lst hmem (Or.inr he) ⟨lst, hmem, rfl⟩

lemma excludeReduced_sublist (g : Grouped V) (e : ReducedPermutation V) :
    List.Sublist (excludeReduced g e) g := by
  rw [excludeReduced]
  have haux : ∀ (l ret : Grouped V),
      List.Sublist (l.foldl (fun ret gr =>
        if exclCond e gr then ret.eraseP fun gr2 => decide (gr2.1 = gr.1)
        else ret) ret) ret := by
    intro l
    induction l with
    | nil => intro ret; exact List.Sublist.refl ret
    | cons gr rest ih =>
      intro ret
      rw [List.foldl_cons]
      refine List.Sublist.trans (ih _) ?_
      by_cases hc : exclCond e gr
      · rw [if_pos hc]; exact List.eraseP_sublist ret
      · rw [if_neg hc]
  exact haux g g

lemma eraseP_key_eq_filter (k : Permutation V) :
    ∀ (l : Grouped V), (l.map Prod.fst).Nodup →
      (l.eraseP fun x => decide (x.1 = k)) =
        l.filter fun x => decide ¬(x.1 = k) := by
  intro l
  induction l with
  | nil => intro _; rfl
  | cons h t ih =>
    intro hnd
    have hht : h.1 ∉ t.map Prod.fst := (List.nodup_cons.mp hnd).1
    have htn : (t.map Prod.fst).Nodup := (List.nodup_cons.mp hnd).2
    by_cases hk : h.1 = k
    · rw [List.eraseP_cons_of_pos (by simp [hk]),
        List.filter_cons_of_neg (by simp [hk])]
      symm
      refine List.filter_eq_self.mpr ?_
      intro x hx
      simp only [decide_eq_true_eq]
      intro hxk
      exact hht (hk ▸ hxk ▸ List.mem_map_of_mem Prod.fst hx)
    · rw [List.eraseP_cons_of_neg (by simp [hk]),
        List.filter_cons_of_pos (by simp [hk]), ih htn]

lemma foldl_excl_eq_filter (e : ReducedPermutation V) :
    ∀ (l ret : Grouped V), (ret.map Prod.fst).Nodup →
      l.foldl (fun ret gr =>
        if exclCond e gr then ret.eraseP fun gr2 => decide (gr2.1 = gr.1)
        else ret) ret =
      ret.filter fun x => decide (¬ ∃ gr ∈ l, exclCond e gr ∧ x.1 = gr.1) := by
  intro l
  induction l with
  | nil =>
    intro ret _
    rw [List.foldl_nil]
    symm
    refine List.filter_eq_self.mpr ?_
    intro x _
    simp
  | cons h t ih =>
    intro ret hnd
    rw [List.foldl_cons]
    by_cases hc : exclCond e h
    · rw [if_pos hc, eraseP_key_eq_filter h.1 ret hnd]
      have hnd' : ((ret.filter fun x => decide ¬(x.1 = h.1)).map
          Prod.fst).Nodup :=
        List.Nodup.sublist (List.Sublist.map Prod.fst
          (List.filter_sublist ret)) hnd
      rw [ih _ hnd', List.filter_filter]
      refine List.filter_congr ?_
      intro x hx
      rw [← Bool.decide_and, decide_eq_decide]
      constructor
      · rintro ⟨hxt, hx1⟩ ⟨gr, hgr, hcgr, hxgr⟩
        cases List.mem_cons.mp hgr with
        | inl hh => exact hx1 (hxgr.trans (congrArg Prod.fst hh))
        | inr hh => exact hxt ⟨gr, hh, hcgr, hxgr⟩
      · intro hno
        constructor
        · rintro ⟨gr, hgr, hcgr, hxgr⟩
          exact hno ⟨gr, List.mem_cons_of_mem h hgr, hcgr, hxgr⟩
        · intro hxh
          exact hno ⟨h, List.mem_cons_self h t, hc, hxh⟩
    · rw [if_neg hc, ih ret hnd]
      refine List.filter_congr ?_
      intro x hx
      rw [decide_eq_decide]
      constructor
      · intro hno
        rintro ⟨gr, hgr, hcgr, hxgr⟩
        cases List.mem_cons.mp hgr with
        | inl hh => exact hc (hh ▸ hcgr)
        | inr hh => exact hno ⟨gr, hh, hcgr, hxgr⟩
      · intro hno
        rintro ⟨gr, hgr, hcgr, hxgr⟩
        exact hno ⟨gr, List.mem_cons_of_mem h hgr, hcgr, hxgr⟩

lemma excludeReduced_eq_filter (g : Grouped V) (e : ReducedPermutation V)
    (hnd : (g.map Prod.fst).Nodup) :
    excludeReduced g e = g.filter fun gr => decide (¬ exclCond e gr) := by
  rw [excludeReduced, foldl_excl_eq_filter e g g hnd]
  refine List.filter_congr ?_
  intro x hx
  rw [decide_eq_decide]
  constructor
  · intro hno hcx
    exact hno ⟨x, hx, hcx, rfl⟩
  · rintro hnc ⟨gr, hgr, hcgr, hxgr⟩
    have hgx : gr = x :=
      List.inj_on_of_nodup_map hnd hgr hx (by rw [hxgr])
    exact hnc (hgx ▸ hcgr)

/-- `_extract_essentials`: the returned dictionary, one entry per member
of the selected group `min_reduced`, in iteration order, mapping each
candidate `essential` to `_exclude_reduced(grouped, essential)`. -/
def extractEssentials (g : Grouped V) :
    List (ReducedPermutation V × Grouped V) :=
  (minReducedSet g).map fun e => (e, excludeReduced g e)

/-- The minimization loop of `_minimal_results_for` over the candidate
branches: keep the branch whose measure is strictly smaller than the
best so far (first found wins ties); if no branch exists (`min_res`
still `None`), return the empty cover. -/
def pickMin (μ : List (ReducedPermutation V) → ℕ)
    (results : List (List (ReducedPermutation V))) :
    List (ReducedPermutation V) :=
  (results.foldl (fun acc res =>
    match acc with
    | none => some res
    | some m => if μ res < μ m then some res else some m) none).getD []

/-- `_minimal_results_for`: branch over every candidate returned by
`_extract_essentials` — each member `e` of the selected group, paired
with `_exclude_reduced(grouped, e)` — recurse on the reduced grouped
mapping, append the candidate to its sub-cover (`res.append(essential)`)
and keep the cover of minimal measure (`self.measure`). -/
def minimalResultsFor {V : Type} [DecidableEq V] [Fintype V]
    [EnumList V] (μ : List (ReducedPermutation V) → ℕ)
    (g : Grouped V) : List (ReducedPermutation V) :=
  pickMin μ ((minReducedSet g).attach.map fun ep =>
    minimalResultsFor μ (excludeReduced g ep.1) ++ [ep.1])
termination_by g.length
decreasing_by exact excludeReduced_length_lt ep.2

/-- The set of minterms covered by a cover: the union of the provenance
sets of its implicants (the property language of the spec's completeness
clause). -/
def coverUnion : List (ReducedPermutation V) → Finset (Permutation V)
  | [] => ∅
  | r :: t => r.perms ∪ coverUnion t

lemma mem_coverUnion {m : Permutation V}
    {l : List (ReducedPermutation V)} :
    m ∈ coverUnion l ↔ ∃ p ∈ l, m ∈ p.perms := by
  induction l with
  | nil => simp [coverUnion]
  | cons r t ih => simp [coverUnion, ih]

omit [DecidableEq V] [EnumList V] in
lemma pickMin_foldl_mem (μ : List (ReducedPermutation V) → ℕ) :
    ∀ (l : List (List (ReducedPermutation V)))
      (acc : Option (List (ReducedPermutation V)))
      (x : List (ReducedPermutation V)),
      l.foldl (fun acc res =>
        match acc with
        | none => some res
        | some m => if μ res < μ m then some res else some m) acc = some x →
      x ∈ l ∨ acc = some x := by
  intro l
  induction l with
  | nil =>
    intro acc x h
    exact Or.inr h
  | cons r t ih =>
    intro acc x h
    rw [List.foldl_cons] at h
    rcases ih _ x h with hmem | hacc
    · exact Or.inl (List.mem_cons_of_mem _ hmem)
    · cases acc with
      | none =>
        have hacc' : some r = some x := hacc
        exact Or.inl ((Option.some.inj hacc') ▸ List.mem_cons_self r t)
      | some m =>
        have hacc' : (if μ r < μ m then some r else some m) = some x := hacc
        by_cases hlt : μ r < μ m
        · rw [if_pos hlt] at hacc'
          exact Or.inl ((Option.some.inj hacc') ▸ List.mem_cons_self r t)
        · rw [if_neg hlt] at hacc'
          exact Or.inr hacc'

omit [DecidableEq V] [EnumList V] in
lemma pickMin_foldl_some (μ : List (ReducedPermutation V) → ℕ) :
    ∀ (l : List (List (ReducedPermutation V)))
      (acc : Option (List (ReducedPermutation V))), acc.isSome →
      ∃ x, l.foldl (fun acc res =>
        match acc with
        | none => some res
        | some m => if μ res < μ m then some res else some m)
        acc = some x := by
  intro l
  induction l with
  | nil =>
    intro acc hacc
    obtain ⟨x, hx⟩ := Option.isSome_iff_exists.mp hacc
    exact ⟨x, hx⟩
  | cons r t ih =>
    intro acc hacc
    rw [List.foldl_cons]
    apply ih
    cases acc with
    | none => simp at hacc
    | some m =>
      show (if μ r < μ m then some r else some m).isSome = true
      by_cases hlt : μ r < μ m
      · rw [if_pos hlt]; rfl
      · rw [if_neg hlt]; rfl

omit [DecidableEq V] [EnumList V] in
lemma pickMin_mem (μ : List (ReducedPermutation V) → ℕ)
    (results : List (List (ReducedPermutation V))) (h : results ≠ []) :
    pickMin μ results ∈ results := by
  rw [pickMin]
  cases results with
  | nil => exact absurd rfl h
  | cons r t =>
    have hfold : (r :: t).foldl (fun acc res =>
        match acc with
        | none => some res
        | some m => if μ res < μ m then some res else some m) none =
        t.foldl (fun acc res =>
        match acc with
        | none => some res
        | some m => if μ res < μ m then some res else some m) (some r) := rfl
    rw [hfold]
    obtain ⟨x, hx⟩ := pickMin_foldl_some μ t (some r) rfl
    rw [hx, Option.getD_some]
    rcases pickMin_foldl_mem μ t (some r) x hx with hmem | hacc
    · exact List.mem_cons_of_mem _ hmem
    · exact (Option.some.inj hacc) ▸ List.mem_cons_self r t

/-- Master lemma for the solver: on a grouped mapping with distinct keys
whose groups are non-empty and whose group members cover their key,
`_minimal_results_for` returns a cover hitting every key, drawn from the
groups of the mapping. -/
lemma minimalResultsFor_spec (μ : List (ReducedPermutation V) → ℕ) :
    ∀ (n : ℕ) (g : Grouped V), g.length = n →
      (g.map Prod.fst).Nodup →
      (∀ gr ∈ g, gr.2 ≠ []) →
      (∀ gr ∈ g, ∀ p ∈ gr.2, gr.1 ∈ p.perms) →
      (∀ m : Permutation V, (∃ s, (m, s) ∈ g) →
        m ∈ coverUnion (minimalResultsFor μ g)) ∧
      (∀ p ∈ minimalResultsFor μ g, ∃ gr ∈ g, p ∈ gr.2) := by
  intro n
  induction n using Nat.strong_induction_on with
  | _ n ih =>
    intro g hlen hnd hne hcov
    rcases hlast : g.getLast? with - | lst
    · have hg : g = [] := List.getLast?_eq_none_iff.mp hlast
      subst hg
      have h0 : minimalResultsFor μ ([] : Grouped V) = [] := by
        rw [minimalResultsFor]
        rfl
      rw [h0]
      constructor
      · rintro m ⟨s, hs⟩
        exact absurd hs (List.not_mem_nil _)
      · intro p hp
        exact absurd hp (List.not_mem_nil _)
    · have hmin : minReducedSet g = lst.2 := by
        rw [minReducedSet_eq, hlast]
      have hlstmem : lst ∈ g :=
        List.mem_of_mem_getLast? (Option.mem_def.mpr hlast)
      have hlst2 : lst.2 ≠ [] := hne lst hlstmem
      have hresne : (minReducedSet g).attach.map (fun ep =>
          minimalResultsFor μ (excludeReduced g ep.1) ++ [ep.1]) ≠ [] := by
        simp only [ne_eq, List.map_eq_nil_iff, List.attach_eq_nil_iff, hmin]
        exact hlst2
      have heq : minimalResultsFor μ g = pickMin μ
          ((minReducedSet g).attach.map fun ep =>
            minimalResultsFor μ (excludeReduced g ep.1) ++ [ep.1]) := by
        rw [minimalResultsFor]
      have hpick := pickMin_mem μ _ hresne
      rw [← heq] at hpick
      obtain ⟨⟨e0, he0⟩, hmem, hbranch⟩ := List.mem_map.mp hpick
      have he0' : e0 ∈ lst.2 := hmin ▸ he0
      have hlt : (excludeReduced g e0).length < n :=
        hlen ▸ excludeReduced_length_lt he0
      have hsub : List.Sublist (excludeReduced g e0) g :=
        excludeReduced_sublist g e0
      have hnd' : ((excludeReduced g e0).map Prod.fst).Nodup :=
        List.Nodup.sublist (List.Sublist.map _ hsub) hnd
      have hne' : ∀ gr ∈ excludeReduced g e0, gr.2 ≠ [] :=
        fun gr hgr => hne gr (hsub.subset hgr)
      have hcov' : ∀ gr ∈ excludeReduced g e0, ∀ p ∈ gr.2, gr.1 ∈ p.perms :=
        fun gr hgr => hcov gr (hsub.subset hgr)
      obtain ⟨IH1, IH2⟩ :=
        ih (excludeReduced g e0).length hlt (excludeReduced g e0) rfl
          hnd' hne' hcov'
      constructor
      · rintro m ⟨s, hs⟩
        rw [← hbranch, mem_coverUnion]
        by_cases hc : exclCond e0 (m, s)
        · rcases hc with hlen0 | he0s
          · exact absurd (List.length_eq_zero.mp hlen0) (hne (m, s) hs)
          · exact ⟨e0, by simp, hcov (m, s) hs e0 he0s⟩
        · have hs' : (m, s) ∈ excludeReduced g e0 := by
            rw [excludeReduced_eq_filter g e0 hnd]
            exact List.mem_filter.mpr ⟨hs, by simpa using hc⟩
          have hm := IH1 m ⟨s, hs'⟩
          rw [mem_coverUnion] at hm
          obtain ⟨p, hp, hmp⟩ := hm
          exact ⟨p, by simp [hp], hmp⟩
      · intro p hp
        rw [← hbranch] at hp
        rcases List.mem_append.mp hp with hp' | hp'
        · obtain ⟨gr, hgr, hpgr⟩ := IH2 p hp'
          exact ⟨gr, hsub.subset hgr, hpgr⟩
        · have hpe : p = e0 := by simpa using hp'
          exact ⟨lst, hlstmem, hpe ▸ he0'⟩

lemma toConj_foldl_eq_init (toName : V → String) (p : Permutation V)
    (hp : ∀ k, p k = none) :
    ∀ (L : List V) (init : String),
      L.foldl (fun ret k =>
        match p k with
        | some true => ret ++ " & " ++ toName k
        | some false => ret ++ " & ~" ++ toName k
        | none => ret) init = init := by
  intro L
  induction L with
  | nil => intro init; rfl
  | cons k rest ih =>
    intro init
    rw [List.foldl_cons]
    have hk : (match p k with
        | some true => init ++ " & " ++ toName k
        | some false => init ++ " & ~" ++ toName k
        | none => init) = init := by rw [hp k]
    rw [hk]
    exact ih init

/-- Trivial implicants used as concrete inputs in the claim witnesses. -/
def rpTT : ReducedPermutation (Fin 2) :=
  ReducedPermutation.fromPermutation ![some true, some true]

def rpTF : ReducedPermutation (Fin 2) :=
  ReducedPermutation.fromPermutation ![some true, some false]

def rpFF : ReducedPermutation (Fin 2) :=
  ReducedPermutation.fromPermutation ![some false, some false]

/-- C2: `_default_measure` applied to the docstring's own example cover,
`a & ~b | b & c` over variables `a, b, c`. -/
def c2cover : List (ReducedPermutation (Fin 3)) :=
  [ReducedPermutation.fromPermutation ![some true, some false, none],
   ReducedPermutation.fromPermutation ![none, some true, some true]]

/-- C2 (code bug): the default measure counts every key of the pattern
dictionary — don't-care entries included — so on the docstring's own
example `a & ~b | b & c` it returns `6`, while both the docstring
("the measure will return 4, as there are 4 terms") and the spec's
literal count give `4`. -/
theorem c2_default_measure_counts_all_keys :
    defaultMeasure c2cover = 6 ∧ specLiteralCount c2cover = 4 ∧
    defaultMeasure c2cover ≠ specLiteralCount c2cover := by
  decide

/-- C4 counterexample: `reduce` does not return `None` exactly on
non-merge-adjacent inputs.  Two implicants with identical patterns are
not merge-adjacent, yet `reduce` merges them; likewise a pair whose only
differing position holds don't-care on one side merges.  (Inputs over a
single variable `a`: patterns `{a: True}` with itself, and `{a: True}`
with `{a: None}`.) -/
theorem c4_counterexample :
    (ReducedPermutation.reduce
        (ReducedPermutation.fromPermutation (fun _ : Fin 1 => some true))
        (ReducedPermutation.fromPermutation (fun _ : Fin 1 => some true)) ≠
          none ∧
      ¬ MergeAdjacent (fun _ : Fin 1 => some true)
        (fun _ : Fin 1 => some true)) ∧
    (ReducedPermutation.reduce
        (ReducedPermutation.fromPermutation (fun _ : Fin 1 => some true))
        (ReducedPermutation.fromPermutation (fun _ : Fin 1 => none)) ≠
          none ∧
      ¬ MergeAdjacent (fun _ : Fin 1 => some true)
        (fun _ : Fin 1 => none)) := by
  decide

/-- C4 (amended): `reduce` returns `None` exactly when the two patterns
disagree on at least two variables; whenever they agree on all but at
most one variable — including identical patterns and a disagreement
where one side is don't-care — it returns the merged implicant (union
of provenances, the disagreeing positions turned don't-care). -/
theorem c4_reduce_none_iff_two_diffs {V : Type} [DecidableEq V]
    [Fintype V] [EnumList V] (a b : ReducedPermutation V) :
    (ReducedPermutation.reduce a b = none ↔
      2 ≤ Permutation.diffCard b.reduced a.reduced) ∧
    (Permutation.diffCard b.reduced a.reduced ≤ 1 →
      ReducedPermutation.reduce a b =
        some ⟨a.perms ∪ b.perms,
          Permutation.mergePattern a.reduced b.reduced⟩) :=
  ⟨ReducedPermutation.reduce_eq_none_iff a b,
   fun h => (ReducedPermutation.reduce_eq_some_iff a b _).mpr ⟨h, rfl⟩⟩

/-- C4 witness: the amended characterization applied at a concrete
merge-adjacent pair (`{a: True, b: False}` and `{a: False, b: False}`). -/
theorem c4_witness :
    (ReducedPermutation.reduce rpTF rpFF = none ↔
      2 ≤ Permutation.diffCard rpFF.reduced rpTF.reduced) ∧
    (Permutation.diffCard rpFF.reduced rpTF.reduced ≤ 1 →
      ReducedPermutation.reduce rpTF rpFF =
        some ⟨rpTF.perms ∪ rpFF.perms,
          Permutation.mergePattern rpTF.reduced rpFF.reduced⟩) :=
  c4_reduce_none_iff_two_diffs rpTF rpFF

/-- C5: when `reduce` succeeds on merge-adjacent implicants, the result's
provenance is the union of the input provenances and its pattern is
don't-care at the single differing variable and the shared value
everywhere else. -/
theorem c5_merge_provenance_and_pattern {V : Type} [DecidableEq V]
    [Fintype V] [EnumList V] (a b r : ReducedPermutation V)
    (hadj : MergeAdjacent a.reduced b.reduced)
    (hr : ReducedPermutation.reduce a b = some r) :
    r.perms = a.perms ∪ b.perms ∧
    (∀ v, a.reduced v ≠ b.reduced v → r.reduced v = none) ∧
    (∀ v, a.reduced v = b.reduced v → r.reduced v = a.reduced v) := by
  obtain ⟨hd, hre⟩ := (ReducedPermutation.reduce_eq_some_iff a b r).mp hr
  subst hre
  refine ⟨rfl, ?_, ?_⟩
  · intro v hv
    show (if b.reduced v = a.reduced v then b.reduced v else none) = none
    rw [if_neg fun h => hv h.symm]
  · intro v hv
    show (if b.reduced v = a.reduced v then b.reduced v else none) =
      a.reduced v
    rw [if_pos hv.symm]
    exact hv.symm

/-- C5 witness: the merge of `{a: True, b: False}` and
`{a: False, b: False}` (adjacent in variable `a`). -/
theorem c5_witness :
    MergeAdjacent rpTF.reduced rpFF.reduced ∧
    ReducedPermutation.reduce rpTF rpFF =
      some ⟨rpTF.perms ∪ rpFF.perms,
        Permutation.mergePattern rpTF.reduced rpFF.reduced⟩ ∧
    (⟨rpTF.perms ∪ rpFF.perms,
        Permutation.mergePattern rpTF.reduced rpFF.reduced⟩ :
        ReducedPermutation (Fin 2)).perms = rpTF.perms ∪ rpFF.perms ∧
    (∀ v, rpTF.reduced v ≠ rpFF.reduced v →
      Permutation.mergePattern rpTF.reduced rpFF.reduced v = none) ∧
    (∀ v, rpTF.reduced v = rpFF.reduced v →
      Permutation.mergePattern rpTF.reduced rpFF.reduced v =
        rpTF.reduced v) :=
  ⟨by decide,
    by rw [ReducedPermutation.reduce_eq, if_neg (by decide)],
    c5_merge_provenance_and_pattern rpTF rpFF _ (by decide)
      (by rw [ReducedPermutation.reduce_eq, if_neg (by decide)])⟩

/-- C9 counterexample: the rendered constants are `'0'` and `'1'`
(the grammar's false/true literals), not the words `"false"` and
`"true"`. -/
theorem c9_counterexample :
    renderMinimal (keyList (Fin 1)) (fun _ => "a")
      ([] : List (ReducedPermutation (Fin 1))) ≠ "false" ∧
    Permutation.toConj (keyList (Fin 1)) (fun _ => "a")
      (fun _ => none) ≠ "true" := by
  decide

/-- C9 (amended): rendering the empty cover produces the textual
constant `"0"` and rendering an all-don't-care implicant produces the
textual constant `"1"`. -/
theorem c9_render_constants {V : Type} [DecidableEq V] [Fintype V]
    [EnumList V] (names : List V) (toName : V → String) :
    renderMinimal names toName ([] : List (ReducedPermutation V)) = "0" ∧
    Permutation.toConj names toName (fun _ => none) = "1" := by
  constructor
  · rfl
  · show (if (names.foldl (fun ret k =>
        match (fun _ => (none : Option Bool)) k with
        | some true => ret ++ " & " ++ toName k
        | some false => ret ++ " & ~" ++ toName k
        | none => ret) "") = "" then "1"
      else (names.foldl (fun ret k =>
        match (fun _ => (none : Option Bool)) k with
        | some true => ret ++ " & " ++ toName k
        | some false => ret ++ " & ~" ++ toName k
        | none => ret) "").drop 3) = "1"
    rw [toConj_foldl_eq_init toName (fun _ => none) (fun _ => rfl) names]
    rfl

/-- The grouped coverage mapping used as the failing input for C1:
dictionary insertion order `{a: T, b: T} ↦ [rpTT]` first, then
`{a: T, b: F} ↦ [rpTT, rpTF]`. -/
def c1grouped : Grouped (Fin 2) :=
  [(![some true, some true], [rpTT]),
   (![some true, some false], [rpTT, rpTF])]

/-- C1 (code bug): the loop of `_extract_essentials` never assigns
`min_degree`, so its guard `min_degree == None or len(reduced) <
min_degree` holds on every iteration and `min_reduced` ends as the group
of the **last** dictionary entry regardless of its size.  On `c1grouped`
the branch-candidate group is the two-element group `[rpTT, rpTF]`
although the mapping holds the strictly smaller group `[rpTT]` — so the
selected group is not of minimum cardinality, contradicting the method's
own docstring ("extracts all essentials from a group with the minimal
degree"). -/
theorem c1_extract_essentials_ignores_min_degree :
    minReducedSet c1grouped = [rpTT, rpTF] ∧
    (extractEssentials c1grouped).map Prod.fst = [rpTT, rpTF] ∧
    (![some true, some true], [rpTT]) ∈ c1grouped ∧
    ([rpTT] : List (ReducedPermutation (Fin 2))).length <
      ([rpTT, rpTF] : List (ReducedPermutation (Fin 2))).length := by
  refine ⟨rfl, rfl, ?_, ?_⟩
  · exact List.mem_cons_self _ _
  · decide

/-- C10: under the Python dictionary guarantee of pairwise-distinct keys,
`_exclude_reduced` returns the grouped mapping restricted, in order, to
exactly the entries whose group is non-empty and does not contain
`to_exclude`; the input mapping is not modified (the embedding is pure:
the result is a fresh filtered copy). -/
theorem c10_exclude_reduced_is_filter {V : Type} [DecidableEq V]
    [Fintype V] [EnumList V] (g : Grouped V) (e : ReducedPermutation V)
    (hnd : (g.map Prod.fst).Nodup) :
    excludeReduced g e =
      g.filter fun gr => decide (¬ (gr.2.length = 0 ∨ e ∈ gr.2)) := by
  rw [excludeReduced_eq_filter g e hnd]
  exact List.filter_congr fun x hx => by
    rw [decide_eq_decide]
    exact Iff.rfl

/-- The grouped mapping of the C10 witness: one group containing the
excluded implicant, one group without it, and one empty group. -/
def c10grouped : Grouped (Fin 2) :=
  [(![some true, some true], [rpTT, rpTF]),
   (![some false, some false], [rpFF]),
   (![some true, some false], ([] : List (ReducedPermutation (Fin 2))))]

/-- C10 witness: the characterization applied to `c10grouped`, whose
keys are pairwise distinct. -/
theorem c10_witness :
    (c10grouped.map Prod.fst).Nodup ∧
    excludeReduced c10grouped rpTT =
      c10grouped.filter fun gr =>
        decide (¬ (gr.2.length = 0 ∨ rpTT ∈ gr.2)) :=
  ⟨by decide, c10_exclude_reduced_is_filter c10grouped rpTT (by decide)⟩

/-- C8 (spec-modelled: `generate_positives` is absent from the repository
files, modelled from spec §4.1): stage 0 built by `for_expr` holds, for
each full assignment satisfying the expression, exactly the trivial
implicant whose provenance is that assignment itself, bucketed under the
assignment's count of `True` values — and nothing else. -/
theorem c8_stage0_characterization {V : Type} [DecidableEq V] [Fintype V]
    [EnumList V] (e : Expr V) (n : ℕ) (r : ReducedPermutation V) :
    (n, r) ∈ forExpr e ↔
      ∃ f : V → Bool, e.eval f = true ∧
        r.perms = {fullPerm f} ∧ r.reduced = fullPerm f ∧
        n = Permutation.countPositives (fullPerm f) := by
  rw [forExpr, groupValues]
  constructor
  · intro h
    obtain ⟨p, hp, hpr⟩ := Finset.mem_image.mp h
    rw [generatePositives] at hp
    obtain ⟨f, hf, hfp⟩ := Finset.mem_image.mp hp
    have hf' : e.eval f = true := (Finset.mem_filter.mp hf).2
    subst hfp
    cases hpr
    exact ⟨f, hf', rfl, rfl, rfl⟩
  · rintro ⟨f, hf, hperms, hred, hn⟩
    apply Finset.mem_image.mpr
    refine ⟨fullPerm f, ?_, ?_⟩
    · rw [generatePositives]
      exact Finset.mem_image.mpr
        ⟨f, Finset.mem_filter.mpr ⟨Finset.mem_univ f, hf⟩, rfl⟩
    · obtain ⟨rp, rr⟩ := r
      simp only at hperms hred
      subst hperms
      subst hred
      rw [hn]
      rfl

/-- C6: when stage 0 is bucketed by the assignments' count of `True`
values, every stage reached by iterating `next_stage` satisfies the
bucketing invariant — an implicant stored under bucket key `n` has a
pattern with exactly `n` positive entries — and every implicant of the
next stage is a merge of a bucket-`n` implicant with a bucket-`(n+1)`
implicant, stored under key `n`. -/
theorem c6_bucket_invariant {V : Type} [DecidableEq V] [Fintype V]
    [EnumList V] (P : Finset (Permutation V)) (hP : ∀ p ∈ P, p.IsFull)
    (k : ℕ) :
    (∀ x ∈ stageIter P k,
      Permutation.countPositives x.2.reduced = x.1) ∧
    (∀ x ∈ stageIter P (k + 1), ∃ a b,
      (x.1, a) ∈ stageIter P k ∧ (x.1 + 1, b) ∈ stageIter P k ∧
      ReducedPermutation.reduce a b = some x.2) := by
  constructor
  · intro x hx
    exact (stage_inv P hP k x hx).1
  · intro x hx
    rw [stageIter, Function.iterate_succ_apply'] at hx
    exact mem_newStage.mp hx

/-- The minterm set of the C6 witness: the two satisfying rows of
`a & b | a & ~b`. -/
def c6minterms : Finset (Permutation (Fin 2)) :=
  {![some true, some true], ![some true, some false]}

/-- C6 witness: the bucketing invariant at stages 0 and 1 of the table
built on `c6minterms`, which are full assignments. -/
theorem c6_witness :
    (∀ p ∈ c6minterms, p.IsFull) ∧
    ((∀ x ∈ stageIter c6minterms 0,
        Permutation.countPositives x.2.reduced = x.1) ∧
      (∀ x ∈ stageIter c6minterms (0 + 1), ∃ a b,
        (x.1, a) ∈ stageIter c6minterms 0 ∧
        (x.1 + 1, b) ∈ stageIter c6minterms 0 ∧
        ReducedPermutation.reduce a b = some x.2)) :=
  ⟨by decide, c6_bucket_invariant c6minterms (by decide) 0⟩

/-- C7: from a stage 0 of minterms (full assignments), every implicant of
stage `k + 1` has strictly more don't-care positions than both stage-`k`
implicants it was merged from; consequently `fill_stages` terminates —
after at most `|V|` appended stages the next stage is empty and the loop
exits on its own. -/
theorem c7_fill_stages_terminates {V : Type} [DecidableEq V] [Fintype V]
    [EnumList V] (P : Finset (Permutation V)) (hP : ∀ p ∈ P, p.IsFull) :
    (∀ k, ∀ x ∈ stageIter P (k + 1), ∀ a b,
      (x.1, a) ∈ stageIter P k → (x.1 + 1, b) ∈ stageIter P k →
      ReducedPermutation.reduce a b = some x.2 →
      Permutation.numNones a.reduced < Permutation.numNones x.2.reduced ∧
      Permutation.numNones b.reduced < Permutation.numNones x.2.reduced) ∧
    (fillStages (groupValues P)).length ≤ Fintype.card V + 1 ∧
    newStage (lastStage (fillStages (groupValues P))) = ∅ := by
  refine ⟨?_, ?_, ?_⟩
  · intro k x hx a b ha hb _
    have h1 := (stage_inv P hP (k + 1) x hx).2
    have h2 : Permutation.numNones a.reduced = k :=
      (stage_inv P hP k (x.1, a) ha).2
    have h3 : Permutation.numNones b.reduced = k :=
      (stage_inv P hP k (x.1 + 1, b) hb).2
    omega
  · rcases hlen : (fillFrom (groupValues P)).length with - | m
    · rw [fillStages, List.length_cons, hlen]
      omega
    · obtain ⟨x, hx⟩ :=
        fillFrom_length_nonempty (m + 1) (groupValues P) hlen (by omega)
      have h1 : Permutation.numNones x.2.reduced = m + 1 :=
        (stage_inv P hP (m + 1) x hx).2
      have h2 := numNones_le_card x.2.reduced
      rw [fillStages, List.length_cons, hlen]
      omega
  · exact fillFrom_last_newStage (Fintype.card V + 1) (groupValues P)
      (stageIter_eventually_empty P hP)

/-- The minterm set of the C7 witness: the three satisfying rows of the
two-variable expression `a | b`. -/
def c7minterms : Finset (Permutation (Fin 2)) :=
  {![some true, some true], ![some true, some false],
   ![some false, some true]}

/-- C7 witness: termination of `fill_stages` on the table built on
`c7minterms`, which are full assignments. -/
theorem c7_witness :
    (∀ p ∈ c7minterms, p.IsFull) ∧
    ((∀ k, ∀ x ∈ stageIter c7minterms (k + 1), ∀ a b,
        (x.1, a) ∈ stageIter c7minterms k →
        (x.1 + 1, b) ∈ stageIter c7minterms k →
        ReducedPermutation.reduce a b = some x.2 →
        Permutation.numNones a.reduced <
          Permutation.numNones x.2.reduced ∧
        Permutation.numNones b.reduced <
          Permutation.numNones x.2.reduced) ∧
      (fillStages (groupValues c7minterms)).length ≤
        Fintype.card (Fin 2) + 1 ∧
      newStage (lastStage (fillStages (groupValues c7minterms))) = ∅) :=
  ⟨by decide, c7_fill_stages_terminates c7minterms (by decide)⟩

/-- C3: for every grouped coverage mapping built from the prime
implicants — distinct minterm keys, each bound to the non-empty set of
prime implicants whose provenance contains it, provenances drawn from
the minterm set — the cover returned by `_minimal_results_for` covers
every minterm: the union of the provenance sets of the returned
implicants equals the full minterm set, under any cost measure. -/
theorem c3_minimal_results_complete {V : Type} [DecidableEq V] [Fintype V]
    [EnumList V] (μ : List (ReducedPermutation V) → ℕ)
    (M : Finset (Permutation V)) (primes : Finset (ReducedPermutation V))
    (g : Grouped V)
    (hnd : (g.map Prod.fst).Nodup)
    (hkeys : ∀ m ∈ M, ∃ s, (m, s) ∈ g)
    (hg : ∀ gr ∈ g, gr.1 ∈ M ∧
      (∀ q ∈ gr.2, q ∈ primes ∧ gr.1 ∈ q.perms) ∧
      (∀ q ∈ primes, gr.1 ∈ q.perms → q ∈ gr.2) ∧ gr.2 ≠ [])
    (hprimes : ∀ p ∈ primes, p.perms ⊆ M) :
    coverUnion (minimalResultsFor μ g) = M := by
  have hne : ∀ gr ∈ g, gr.2 ≠ [] := fun gr hgr => (hg gr hgr).2.2.2
  have hcov : ∀ gr ∈ g, ∀ p ∈ gr.2, gr.1 ∈ p.perms :=
    fun gr hgr p hp => ((hg gr hgr).2.1 p hp).2
  obtain ⟨H1, H2⟩ := minimalResultsFor_spec μ g.length g rfl hnd hne hcov
  apply Finset.Subset.antisymm
  · intro m hm
    rw [mem_coverUnion] at hm
    obtain ⟨p, hp, hmp⟩ := hm
    obtain ⟨gr, hgr, hpgr⟩ := H2 p hp
    exact hprimes p ((hg gr hgr).2.1 p hpgr).1 hmp
  · intro m hm
    exact H1 m (hkeys m hm)

/-- Concrete data for the C3 witness: minterms, prime implicants and the
grouped coverage mapping of the expression `a & ~b | ~a & ~b` over two
variables (single prime implicant `~b` covering both minterms). -/
def c3minterm1 : Permutation (Fin 2) := ![some true, some false]

def c3minterm2 : Permutation (Fin 2) := ![some false, some false]

def c3prime : ReducedPermutation (Fin 2) :=
  ⟨{c3minterm1, c3minterm2}, ![none, some false]⟩

def c3grouped : Grouped (Fin 2) :=
  [(c3minterm1, [c3prime]), (c3minterm2, [c3prime])]

/-- C3 witness: completeness on `c3grouped` under the default measure. -/
theorem c3_witness :
    ((c3grouped.map Prod.fst).Nodup ∧
      (∀ m ∈ ({c3minterm1, c3minterm2} : Finset (Permutation (Fin 2))),
        ∃ s, (m, s) ∈ c3grouped) ∧
      (∀ gr ∈ c3grouped,
        gr.1 ∈ ({c3minterm1, c3minterm2} :
          Finset (Permutation (Fin 2))) ∧
        (∀ q ∈ gr.2, q ∈ ({c3prime} :
          Finset (ReducedPermutation (Fin 2))) ∧ gr.1 ∈ q.perms) ∧
        (∀ q ∈ ({c3prime} : Finset (ReducedPermutation (Fin 2))),
          gr.1 ∈ q.perms → q ∈ gr.2) ∧ gr.2 ≠ []) ∧
      (∀ p ∈ ({c3prime} : Finset (ReducedPermutation (Fin 2))),
        p.perms ⊆ ({c3minterm1, c3minterm2} :
          Finset (Permutation (Fin 2))))) ∧
    coverUnion (minimalResultsFor defaultMeasure c3grouped) =
      ({c3minterm1, c3minterm2} : Finset (Permutation (Fin 2))) := by
  have hkeys : ∀ m ∈ ({c3minterm1, c3minterm2} :
      Finset (Permutation (Fin 2))), ∃ s, (m, s) ∈ c3grouped := by
    intro m hm
    rcases Finset.mem_insert.mp hm with h | h
    · exact ⟨[c3prime], by rw [h]; exact List.mem_cons_self _ _⟩
    · refine ⟨[c3prime], ?_⟩
      rw [Finset.mem_singleton.mp h]
      exact List.mem_cons_of_mem _ (List.mem_cons_self _ _)
  exact ⟨⟨by decide, hkeys, by decide, by decide⟩,
    c3_minimal_results_complete defaultMeasure
      ({c3minterm1, c3minterm2} : Finset (Permutation (Fin 2)))
      ({c3prime} : Finset (ReducedPermutation (Fin 2))) c3grouped
      (by decide) hkeys (by decide) (by decide)⟩

end LogicSimplifier
